import Mathlib

/-!
Verification of the SimCLR-CIFAR10 training script (`simclr.py`).

The file shallowly embeds the algorithmic core of the script:
the contrastive-loss target construction (`nt_xent`, lines 44-48),
the similarity pipeline of `nt_xent` (lines 35-42 and 48),
the cosine learning-rate schedule (`get_lr`, lines 51-53),
the pair dataset and batch flattening (`CIFAR10Pair.__getitem__` and the
`x.view` reshape in `train`), the checkpoint condition and file naming
(lines 116-119), and the startup assertions (lines 58 and 75).
Machine floats are modelled as real numbers; Python exceptions are
modelled with `Option`/`Except`.
-/

namespace SimCLR

/-! ## Contrastive-loss target vector (`nt_xent`, lines 44-47)

`targets = torch.arange(x.size()[0])`, then `targets[::2] += 1` and
`targets[1::2] -= 1`.  The strided slice assignments are modelled as a
positional update over the list.  Values are integers (`torch.arange`
yields int64), so we use `ℤ`. -/

/-- `torch.arange(n)` as a list of integers. -/
def arange (n : ℕ) : List ℤ :=
  (List.range n).map Int.ofNat

/-- Strided slice assignment `l[offset::2] += delta`: adds `delta` at every
position congruent to `offset` modulo 2. -/
def sliceAddEveryTwo (offset : ℕ) (delta : ℤ) (l : List ℤ) : List ℤ :=
  l.mapIdx fun i v => if i % 2 = offset then v + delta else v

/-- The target index vector built in `nt_xent`:
`arange(n)`, then `+1` on the even positions, then `-1` on the odd
positions. -/
def targets (n : ℕ) : List ℤ :=
  sliceAddEveryTwo 1 (-1) (sliceAddEveryTwo 0 1 (arange n))

theorem length_arange (n : ℕ) : (arange n).length = n := by
  simp [arange]

theorem length_sliceAddEveryTwo (offset : ℕ) (delta : ℤ) (l : List ℤ) :
    (sliceAddEveryTwo offset delta l).length = l.length := by
  simp [sliceAddEveryTwo]

theorem length_targets (n : ℕ) : (targets n).length = n := by
  simp [targets, length_sliceAddEveryTwo, length_arange]

theorem arange_get (n i : ℕ) (h : i < (arange n).length) :
    (arange n).get ⟨i, h⟩ = (i : ℤ) := by
  simp [arange] at h ⊢

theorem sliceAddEveryTwo_get (offset : ℕ) (delta : ℤ) (l : List ℤ)
    (i : ℕ) (h : i < (sliceAddEveryTwo offset delta l).length) :
    (sliceAddEveryTwo offset delta l).get ⟨i, h⟩ =
      if i % 2 = offset
      then l.get ⟨i, by simpa [length_sliceAddEveryTwo] using h⟩ + delta
      else l.get ⟨i, by simpa [length_sliceAddEveryTwo] using h⟩ := by
  have h' : i < l.length := by simpa [length_sliceAddEveryTwo] using h
  simp [sliceAddEveryTwo, List.get_mapIdx l _ i h']

/-- Closed form for the target vector: position `i` holds `i+1` when `i`
is even and `i-1` when `i` is odd. -/
theorem targets_get (n i : ℕ) (h : i < (targets n).length) :
    (targets n).get ⟨i, h⟩ = if i % 2 = 0 then (i : ℤ) + 1 else (i : ℤ) - 1 := by
  have h1 : i < (sliceAddEveryTwo 1 (-1) (sliceAddEveryTwo 0 1 (arange n))).length := h
  have e1 : (targets n).get ⟨i, h⟩
      = (sliceAddEveryTwo 1 (-1) (sliceAddEveryTwo 0 1 (arange n))).get ⟨i, h1⟩ := rfl
  rw [e1]
  simp only [sliceAddEveryTwo_get, arange_get]
  rcases Nat.even_or_odd i with he | ho
  · have h0 : i % 2 = 0 := Nat.even_iff.mp he
    simp [h0]
  · have h0 : i % 2 = 1 := Nat.odd_iff.mp ho
    simp [h0]
    ring

/-- C1: for every even number `2N` of representation rows (`N ≥ 1`), the
target index vector built by the contrastive loss assigns target `2k+1` to
row `2k` and target `2k` to row `2k+1` for every `k < N`; in particular for
`N = 2` it equals `[1,0,3,2]` and for `N = 3` it equals `[1,0,3,2,5,4]`. -/
theorem nt_xent_targets_correct (N k : ℕ) (hN : 1 ≤ N) (hk : k < N) :
    ((targets (2 * N)).get ⟨2 * k, by rw [length_targets]; omega⟩
        = (2 * k : ℤ) + 1
      ∧ (targets (2 * N)).get ⟨2 * k + 1, by rw [length_targets]; omega⟩
        = (2 * k : ℤ))
    ∧ targets 4 = [1, 0, 3, 2] ∧ targets 6 = [1, 0, 3, 2, 5, 4] := by
  refine ⟨⟨?_, ?_⟩, ?_, ?_⟩
  · rw [targets_get]
    have h0 : 2 * k % 2 = 0 := by omega
    simp [h0]
  · rw [targets_get]
    have h0 : (2 * k + 1) % 2 = 0 → False := by omega
    simp only [if_neg h0]
    push_cast
    ring
  · decide
  · decide

theorem nt_xent_targets_correct_witness :
    (((targets (2 * 3)).get ⟨2 * 2, by rw [length_targets]; omega⟩
        = (2 * 2 : ℤ) + 1
      ∧ (targets (2 * 3)).get ⟨2 * 2 + 1, by rw [length_targets]; omega⟩
        = (2 * 2 : ℤ))
    ∧ targets 4 = [1, 0, 3, 2] ∧ targets 6 = [1, 0, 3, 2, 5, 4]) :=
  nt_xent_targets_correct 3 2 (by decide) (by decide)

/-! ## Paired dataset and batch flattening
(`CIFAR10Pair.__getitem__`, lines 28-32, and the `x.view` reshape at
lines 102-104 of `train`)

`__getitem__` applies `self.transform` twice to the image at `idx` and
stacks the two results; the two independent stochastic draws of the
transform are modelled as two functions `t1`, `t2`.  The collated batch
tensor of shape `(N, 2, C, H, W)` is a list of stacked pairs, and
`x.view(sizes[0] * 2, ...)` is its row-major flattening. -/

section PairBatch

variable {α β : Type}

/-- `CIFAR10Pair.__getitem__`: the stacked positive pair for index `idx`
together with the label. -/
def getItemPair (data : ℕ → α) (label : ℕ → ℕ) (t1 t2 : α → β) (idx : ℕ) :
    (β × β) × ℕ :=
  ((t1 (data idx), t2 (data idx)), label idx)

/-- The view pairs of the collated batch for a list of dataset indices. -/
def batchViews (data : ℕ → α) (label : ℕ → ℕ) (t1 t2 : α → β)
    (idxs : List ℕ) : List (β × β) :=
  idxs.map fun idx => (getItemPair data label t1 t2 idx).1

/-- `x.view(sizes[0] * 2, sizes[2], sizes[3], sizes[4])`: row-major
flattening of `N` stacked pairs into `2N` views. -/
def flattenBatch (pairs : List (β × β)) : List β :=
  pairs.flatMap fun p => [p.1, p.2]

theorem length_flattenBatch (pairs : List (β × β)) :
    (flattenBatch pairs).length = 2 * pairs.length := by
  induction pairs with
  | nil => simp [flattenBatch]
  | cons p rest ih =>
    simp [flattenBatch] at ih ⊢
    omega

theorem flattenBatch_get_even (pairs : List (β × β)) (k : ℕ)
    (hk : k < pairs.length)
    (h2 : 2 * k < (flattenBatch pairs).length) :
    (flattenBatch pairs).get ⟨2 * k, h2⟩ = (pairs.get ⟨k, hk⟩).1 := by
  induction pairs generalizing k with
  | nil => simp at hk
  | cons p rest ih =>
    match k with
    | 0 => rfl
    | k' + 1 =>
      have hk' : k' < rest.length := by simpa using hk
      have h2' : 2 * k' < (flattenBatch rest).length := by
        simp [length_flattenBatch]
        omega
      have : (flattenBatch (p :: rest)).get ⟨2 * (k' + 1), h2⟩
          = (flattenBatch rest).get ⟨2 * k', h2'⟩ := by
        have e : flattenBatch (p :: rest) = p.1 :: p.2 :: flattenBatch rest := rfl
        have e2 : 2 * (k' + 1) = 2 * k' + 1 + 1 := by omega
        simp [e, e2, List.get_cons_succ]
      rw [this, ih k' hk' h2']
      rfl

theorem flattenBatch_get_odd (pairs : List (β × β)) (k : ℕ)
    (hk : k < pairs.length)
    (h2 : 2 * k + 1 < (flattenBatch pairs).length) :
    (flattenBatch pairs).get ⟨2 * k + 1, h2⟩ = (pairs.get ⟨k, hk⟩).2 := by
  induction pairs generalizing k with
  | nil => simp at hk
  | cons p rest ih =>
    match k with
    | 0 => rfl
    | k' + 1 =>
      have hk' : k' < rest.length := by simpa using hk
      have h2' : 2 * k' + 1 < (flattenBatch rest).length := by
        simp [length_flattenBatch]
        omega
      have : (flattenBatch (p :: rest)).get ⟨2 * (k' + 1) + 1, h2⟩
          = (flattenBatch rest).get ⟨2 * k' + 1, h2'⟩ := by
        have e : flattenBatch (p :: rest) = p.1 :: p.2 :: flattenBatch rest := rfl
        have e2 : 2 * (k' + 1) + 1 = 2 * k' + 1 + 1 + 1 := by omega
        simp [e, e2, List.get_cons_succ]
      rw [this, ih k' hk' h2']
      rfl

/-- C3: for every batch of `N` view pairs (`N ≥ 1`), the flattening done
before the model call yields `2N` views, and the views at flattened
positions `2k` and `2k+1` are the two augmentations of the same underlying
sample `data (idxs[k])`, for every `k < N`. -/
theorem flatten_preserves_pairing (data : ℕ → α) (label : ℕ → ℕ)
    (t1 t2 : α → β) (idxs : List ℕ) (k : ℕ)
    (hN : 1 ≤ idxs.length) (hk : k < idxs.length) :
    (flattenBatch (batchViews data label t1 t2 idxs)).length = 2 * idxs.length
    ∧ (flattenBatch (batchViews data label t1 t2 idxs)).get
        ⟨2 * k, by rw [length_flattenBatch, (by simp [batchViews] :
            (batchViews data label t1 t2 idxs).length = idxs.length)]; omega⟩
        = t1 (data (idxs.get ⟨k, hk⟩))
    ∧ (flattenBatch (batchViews data label t1 t2 idxs)).get
        ⟨2 * k + 1, by rw [length_flattenBatch, (by simp [batchViews] :
            (batchViews data label t1 t2 idxs).length = idxs.length)]; omega⟩
        = t2 (data (idxs.get ⟨k, hk⟩)) := by
  have hlen : (batchViews data label t1 t2 idxs).length = idxs.length := by
    simp [batchViews]
  have hkb : k < (batchViews data label t1 t2 idxs).length := by omega
  refine ⟨by rw [length_flattenBatch, hlen], ?_, ?_⟩
  · rw [flattenBatch_get_even _ k hkb]
    simp [batchViews, getItemPair]
  · rw [flattenBatch_get_odd _ k hkb]
    simp [batchViews, getItemPair]

theorem flatten_preserves_pairing_witness :
    (flattenBatch (batchViews (fun i => i) (fun _ => 0)
        (fun a => 10 * a) (fun a => 10 * a + 1) [5, 7])).length = 2 * 2
    ∧ (flattenBatch (batchViews (fun i => i) (fun _ => 0)
        (fun a => 10 * a) (fun a => 10 * a + 1) [5, 7])).get
        ⟨2 * 1, by decide⟩
        = 10 * ([5, 7].get ⟨1, by decide⟩)
    ∧ (flattenBatch (batchViews (fun i => i) (fun _ => 0)
        (fun a => 10 * a) (fun a => 10 * a + 1) [5, 7])).get
        ⟨2 * 1 + 1, by decide⟩
        = 10 * ([5, 7].get ⟨1, by decide⟩) + 1 :=
  flatten_preserves_pairing (fun i => i) (fun _ => 0)
    (fun a => 10 * a) (fun a => 10 * a + 1) [5, 7] 1 (by decide) (by decide)

end PairBatch

/-! ## Checkpointing (`train`, lines 116-119)

`if epoch >= args.log_interval and epoch % args.log_interval == 0:` then
`torch.save(..., 'simclr_{}_epoch{}.pt'.format(args.backbone, epoch))`. -/

/-- The checkpoint guard of the training loop. -/
def shouldSaveCheckpoint (epoch log_interval : ℕ) : Bool :=
  decide (log_interval ≤ epoch) && (epoch % log_interval == 0)

/-- The checkpoint file name. -/
def checkpointFileName (backbone : String) (epoch : ℕ) : String :=
  "simclr_" ++ backbone ++ "_epoch" ++ toString epoch ++ ".pt"

/-- C7: for every epoch `e ≥ 1` and log interval `L ≥ 1`, a checkpoint is
persisted after epoch `e` iff `e ≥ L` and `e` is an exact multiple of `L`,
and the artifact name is `simclr_<backbone>_epoch<N>.pt`. -/
theorem checkpoint_condition_and_name (e L : ℕ) (backbone : String)
    (he : 1 ≤ e) (hL : 1 ≤ L) :
    (shouldSaveCheckpoint e L = true ↔ L ≤ e ∧ L ∣ e)
    ∧ checkpointFileName backbone e
        = "simclr_" ++ backbone ++ "_epoch" ++ toString e ++ ".pt" := by
  constructor
  · simp [shouldSaveCheckpoint, Nat.dvd_iff_mod_eq_zero]
  · rfl

theorem checkpoint_condition_and_name_witness :
    ((shouldSaveCheckpoint 4 2 = true ↔ 2 ≤ 4 ∧ 2 ∣ 4)
    ∧ checkpointFileName "resnet18" 4
        = "simclr_" ++ "resnet18" ++ "_epoch" ++ toString 4 ++ ".pt") :=
  checkpoint_condition_and_name 4 2 "resnet18" (by decide) (by decide)

/-! ## Startup assertions (`train`, lines 58 and 75)

`assert torch.cuda.is_available()` runs first; after dataset and loader
setup (which performs no training step), `assert args.backbone in
['resnet18', 'resnet34']` runs; only then is the model built and the
training loop entered.  A failed `assert` raises `AssertionError` before
any training step. -/

/-- The two fatal startup failures of `train`. -/
inductive StartupError where
  | noAccelerator
  | unsupportedBackbone
deriving DecidableEq

/-- The backbone whitelist of line 75. -/
def supportedBackbones : List String := ["resnet18", "resnet34"]

/-- The startup checks of `train`, followed by the training loop.
`numSteps` abstracts the loop body: `.ok numSteps` means the loop ran all
its steps; `.error e` means a startup assertion failed and no step ran. -/
def trainRun (cudaAvailable : Bool) (backbone : String) (numSteps : ℕ) :
    Except StartupError ℕ :=
  if cudaAvailable = true then
    if backbone ∈ supportedBackbones then Except.ok numSteps
    else Except.error StartupError.unsupportedBackbone
  else Except.error StartupError.noAccelerator

/-- C8: `train` fails at startup (running no step) iff no accelerator is
available or the backbone is not whitelisted; under the precondition both
error branches are unreachable and the loop runs. -/
theorem startup_assertions (c : Bool) (b : String) (n : ℕ) :
    ((trainRun c b n).isOk = true ↔ (c = true ∧ b ∈ supportedBackbones))
    ∧ (c = false → trainRun c b n = Except.error StartupError.noAccelerator)
    ∧ (c = true → b ∉ supportedBackbones →
        trainRun c b n = Except.error StartupError.unsupportedBackbone)
    ∧ (c = true → b ∈ supportedBackbones → trainRun c b n = Except.ok n) := by
  cases c with
  | false => simp [trainRun, Except.isOk, Except.toBool]
  | true =>
    by_cases hb : b ∈ supportedBackbones
    · simp [trainRun, hb, Except.isOk, Except.toBool]
    · simp [trainRun, hb, Except.isOk, Except.toBool]

theorem startup_assertions_witness :
    (((trainRun true "resnet18" 3).isOk = true
        ↔ (true = true ∧ "resnet18" ∈ supportedBackbones))
    ∧ (true = false →
        trainRun true "resnet18" 3 = Except.error StartupError.noAccelerator)
    ∧ (true = true → "resnet18" ∉ supportedBackbones →
        trainRun true "resnet18" 3
          = Except.error StartupError.unsupportedBackbone)
    ∧ (true = true → "resnet18" ∈ supportedBackbones →
        trainRun true "resnet18" 3 = Except.ok 3)) :=
  startup_assertions true "resnet18" 3

/-! ## Cosine learning-rate schedule (`get_lr`, lines 51-53)

`get_lr(step, total_steps, lr_max, lr_min)` returns
`lr_min + (lr_max - lr_min) * 0.5 * (1 + np.cos(step / total_steps * np.pi))`.
`LambdaLR` feeds integer steps, so `step` and `total_steps` are naturals
cast to reals.  In `train` (lines 88-95) it is installed as the
`lr_lambda` multiplicative factor with `lr_max = args.learning_rate` and
`lr_min = 1e-3`, and `total_steps = args.epochs * len(train_loader)`. -/

/-- `get_lr` of lines 51-53. -/
noncomputable def get_lr (step total_steps : ℕ) (lr_max lr_min : ℝ) : ℝ :=
  lr_min + (lr_max - lr_min) * 0.5
    * (1 + Real.cos ((step : ℝ) / (total_steps : ℝ) * Real.pi))

/-- `get_lr`, with Python division semantics made explicit:
`step / total_steps` raises `ZeroDivisionError` when `total_steps = 0`,
modelled as `none`; otherwise the value of `get_lr`. -/
noncomputable def get_lrChecked (step total_steps : ℕ) (lr_max lr_min : ℝ) :
    Option ℝ :=
  if total_steps = 0 then none
  else some (get_lr step total_steps lr_max lr_min)

/-- `args.epochs * len(train_loader)` (line 93). -/
def totalSteps (epochs batchesPerEpoch : ℕ) : ℕ := epochs * batchesPerEpoch

/-- The `lr_min` argument passed at line 95. -/
noncomputable def trainLrMin : ℝ := 1e-3

/-- C6: for `total_steps ≠ 0`, `get_lr` returns exactly
`lr_min + (lr_max - lr_min) * 0.5 * (1 + cos(step / total_steps * π))`;
at `step = total_steps` it returns `lr_min`; and the `lr_min` floor used
by `train` is `1e-3`, distinct from zero. -/
theorem get_lr_formula_and_floor (step T : ℕ) (a b : ℝ) (hT : T ≠ 0) :
    get_lr step T a b
      = b + (a - b) * 0.5 * (1 + Real.cos ((step : ℝ) / (T : ℝ) * Real.pi))
    ∧ get_lr T T a b = b
    ∧ trainLrMin ≠ 0 := by
  refine ⟨rfl, ?_, by norm_num [trainLrMin]⟩
  have hT' : (T : ℝ) ≠ 0 := Nat.cast_ne_zero.mpr hT
  rw [get_lr, div_self hT', one_mul, Real.cos_pi]
  ring

theorem get_lr_formula_and_floor_witness :
    (get_lr 5 2 3 1
      = 1 + (3 - 1) * 0.5 * (1 + Real.cos (((5 : ℕ) : ℝ) / ((2 : ℕ) : ℝ) * Real.pi))
    ∧ get_lr 2 2 3 1 = 1
    ∧ trainLrMin ≠ 0) :=
  get_lr_formula_and_floor 5 2 3 1 (by norm_num)

/-- C2 as stated is false: at `step = 0` the computed multiplier is
`lr_max`, not `1.0`.  Concretely, with `total_steps = 1 ≥ 1` and
`lr_max = 2 ≥ 0 = lr_min`, `get_lr 0 1 2 0 = 2 ≠ 1`. -/
theorem get_lr_step0_counterexample :
    1 ≤ (1 : ℕ) ∧ (0 : ℝ) ≤ 2 ∧ get_lr 0 1 2 0 ≠ 1 := by
  refine ⟨le_refl 1, by norm_num, ?_⟩
  have h : get_lr 0 1 2 0 = 2 := by
    rw [get_lr]
    norm_num [Real.cos_zero]
  rw [h]
  norm_num

/-- C2 amended: for every `total_steps ≥ 1` and `lr_max ≥ lr_min`, the
computed multiplier equals `lr_max` (not `1.0`) at `step = 0`, equals the
`lr_min` floor at `step = total_steps`, and is monotonically
non-increasing over `[0, total_steps]`. -/
theorem get_lr_endpoints_and_monotone (T : ℕ) (a b : ℝ)
    (hT : 1 ≤ T) (hab : b ≤ a) :
    get_lr 0 T a b = a
    ∧ get_lr T T a b = b
    ∧ ∀ s1 s2 : ℕ, s1 ≤ s2 → s2 ≤ T →
        get_lr s2 T a b ≤ get_lr s1 T a b := by
  have hT0 : T ≠ 0 := by omega
  have hTpos : (0 : ℝ) < (T : ℝ) := by
    exact_mod_cast Nat.pos_of_ne_zero hT0
  refine ⟨?_, ((get_lr_formula_and_floor 0 T a b hT0).2).1, ?_⟩
  · rw [get_lr]
    norm_num [Real.cos_zero]
    ring
  · intro s1 s2 h12 h2T
    have hcast : (s1 : ℝ) ≤ (s2 : ℝ) := by exact_mod_cast h12
    have hx1 : (0 : ℝ) ≤ (s1 : ℝ) / (T : ℝ) * Real.pi := by positivity
    have hd12 : (s1 : ℝ) / (T : ℝ) ≤ (s2 : ℝ) / (T : ℝ) :=
      (div_le_div_iff_of_pos_right hTpos).mpr hcast
    have hmul12 : (s1 : ℝ) / (T : ℝ) * Real.pi ≤ (s2 : ℝ) / (T : ℝ) * Real.pi :=
      mul_le_mul_of_nonneg_right hd12 Real.pi_pos.le
    have hx2 : (s2 : ℝ) / (T : ℝ) * Real.pi ≤ Real.pi := by
      have h1 : (s2 : ℝ) / (T : ℝ) ≤ 1 := by
        rw [div_le_one hTpos]
        exact_mod_cast h2T
      calc (s2 : ℝ) / (T : ℝ) * Real.pi ≤ 1 * Real.pi :=
            mul_le_mul_of_nonneg_right h1 Real.pi_pos.le
        _ = Real.pi := one_mul _
    have hcos : Real.cos ((s2 : ℝ) / (T : ℝ) * Real.pi)
        ≤ Real.cos ((s1 : ℝ) / (T : ℝ) * Real.pi) :=
      Real.cos_le_cos_of_nonneg_of_le_pi hx1 hx2 hmul12
    have h05 : (0 : ℝ) ≤ (a - b) * 0.5 := by linarith
    have := mul_le_mul_of_nonneg_left hcos h05
    rw [get_lr, get_lr]
    nlinarith [this]

theorem get_lr_endpoints_and_monotone_witness :
    (get_lr 0 2 3 1 = 3
    ∧ get_lr 2 2 3 1 = 1
    ∧ ∀ s1 s2 : ℕ, s1 ≤ s2 → s2 ≤ 2 →
        get_lr s2 2 3 1 ≤ get_lr s1 2 3 1) :=
  get_lr_endpoints_and_monotone 2 3 1 (by norm_num) (by norm_num)

/-- C10: `get_lr` divides `step` by `total_steps` with no guard, so in
Python semantics the division raises iff `total_steps = 0` (as happens
for `epochs * len(train_loader) = 0`); for every `total_steps ≥ 1` the
division-by-zero branch is unreachable and `get_lr` is well defined. -/
theorem get_lr_zero_division (step T e bpe : ℕ) (a b : ℝ)
    (hT : 1 ≤ T) (h0 : totalSteps e bpe = 0) :
    get_lrChecked step 0 a b = none
    ∧ get_lrChecked step (totalSteps e bpe) a b = none
    ∧ get_lrChecked step T a b = some (get_lr step T a b) := by
  refine ⟨by simp [get_lrChecked], ?_, ?_⟩
  · rw [h0]
    simp [get_lrChecked]
  · rw [get_lrChecked, if_neg (by omega)]

theorem get_lr_zero_division_witness :
    (get_lrChecked 7 0 1 0 = none
    ∧ get_lrChecked 7 (totalSteps 0 5) 1 0 = none
    ∧ get_lrChecked 7 3 1 0 = some (get_lr 7 3 1 0)) :=
  get_lr_zero_division 7 3 0 5 1 0 (by norm_num) (by decide)

/-! ## The `nt_xent` similarity pipeline (lines 35-48)

`x = F.normalize(x, dim=1)` (default `eps = 1e-12`:
each row is divided by `max(‖row‖₂, eps)`);
`x_scores = (x @ x.t()).clamp(min=1e-7)`;
`x_scale = x_scores / t`;
`x_scale = x_scale - torch.eye(n) * 1e5`;
`F.cross_entropy(x_scale, targets)` with the positive-partner targets.
Rows are `Fin d → ℝ`, matrices `Fin n → Fin n → ℝ`. -/

/-- Euclidean norm of a row. -/
noncomputable def rowNorm (d : ℕ) (v : Fin d → ℝ) : ℝ :=
  Real.sqrt (∑ j, v j ^ 2)

/-- `F.normalize(·, dim=1)` on one row, with the default `eps = 1e-12`. -/
noncomputable def normalizeRow (d : ℕ) (v : Fin d → ℝ) : Fin d → ℝ :=
  fun j => v j / max (rowNorm d v) 1e-12

/-- `x = F.normalize(x, dim=1)`. -/
noncomputable def xNormalized (n d : ℕ) (x : Fin n → Fin d → ℝ) :
    Fin n → Fin d → ℝ :=
  fun i => normalizeRow d (x i)

/-- `x_scores = (x @ x.t()).clamp(min=1e-7)`. -/
noncomputable def x_scores (n d : ℕ) (x : Fin n → Fin d → ℝ) :
    Fin n → Fin n → ℝ :=
  fun i j => max (∑ k, xNormalized n d x i k * xNormalized n d x j k) 1e-7

/-- `x_scale = x_scores / t`. -/
noncomputable def x_scale (n d : ℕ) (x : Fin n → Fin d → ℝ) (t : ℝ) :
    Fin n → Fin n → ℝ :=
  fun i j => x_scores n d x i j / t

/-- `x_scale = x_scale - torch.eye(n) * 1e5`. -/
noncomputable def x_scale_diag (n d : ℕ) (x : Fin n → Fin d → ℝ) (t : ℝ) :
    Fin n → Fin n → ℝ :=
  fun i j => x_scale n d x t i j - (if i = j then (1 : ℝ) else 0) * 1e5

/-- The target of row `i` (lines 44-47) as an index into `Fin (2 * N)`:
`i + 1` for even `i`, `i - 1` for odd `i`. -/
def targetFin (N : ℕ) (i : Fin (2 * N)) : Fin (2 * N) :=
  if h : i.val % 2 = 0
  then ⟨i.val + 1, by have hi := i.isLt; omega⟩
  else ⟨i.val - 1, by have hi := i.isLt; omega⟩

/-- Softmax probability assigned to entry `j` of a row of logits. -/
noncomputable def softmaxProb (n : ℕ) (row : Fin n → ℝ) (j : Fin n) : ℝ :=
  Real.exp (row j) / ∑ k, Real.exp (row k)

/-- Cross-entropy of one row of logits against a target index,
`-log softmax(row)[target]`. -/
noncomputable def crossEntropyRow (n : ℕ) (row : Fin n → ℝ) (target : Fin n) :
    ℝ :=
  Real.log (∑ k, Real.exp (row k)) - row target

/-- `nt_xent(x, t)`: mean cross-entropy of the suppressed, scaled score
matrix against the positive-partner targets (line 48). -/
noncomputable def nt_xent (N d : ℕ) (x : Fin (2 * N) → Fin d → ℝ) (t : ℝ) :
    ℝ :=
  (∑ i, crossEntropyRow (2 * N) (x_scale_diag (2 * N) d x t i) (targetFin N i))
    / ((2 * N : ℕ) : ℝ)

/-- C5: the loss pipeline normalizes rows, forms the full pairwise
similarity matrix, clamps every entry to the floor `1e-7` (so every
clamped entry is `≥ 1e-7`, also when the cosine similarity is negative),
and only then divides by the temperature. -/
theorem nt_xent_clamp_floor (n d : ℕ) (x : Fin n → Fin d → ℝ) (t : ℝ)
    (i j : Fin n) :
    x_scale n d x t i j
      = max (∑ k, xNormalized n d x i k * xNormalized n d x j k) 1e-7 / t
    ∧ (1e-7 : ℝ) ≤ x_scores n d x i j
    ∧ ((∑ k, xNormalized n d x i k * xNormalized n d x j k) < 1e-7 →
        x_scores n d x i j = 1e-7) := by
  refine ⟨rfl, le_max_right _ _, fun h => ?_⟩
  rw [x_scores, max_eq_right h.le]

theorem nt_xent_clamp_floor_witness :
    (x_scale 2 1 ![![1], ![-1]] (1/2) 0 1
      = max (∑ k, xNormalized 2 1 ![![1], ![-1]] 0 k
          * xNormalized 2 1 ![![1], ![-1]] 1 k) 1e-7 / (1/2)
    ∧ (1e-7 : ℝ) ≤ x_scores 2 1 ![![1], ![-1]] 0 1
    ∧ ((∑ k, xNormalized 2 1 ![![1], ![-1]] 0 k
          * xNormalized 2 1 ![![1], ![-1]] 1 k) < 1e-7 →
        x_scores 2 1 ![![1], ![-1]] 0 1 = 1e-7)) :=
  nt_xent_clamp_floor 2 1 ![![1], ![-1]] (1/2) 0 1

/-- A normalized row has self-similarity at most `1`:
`F.normalize` divides by `max(‖row‖, eps) ≥ ‖row‖`. -/
theorem normalized_self_sim_le_one (n d : ℕ) (x : Fin n → Fin d → ℝ)
    (i : Fin n) :
    ∑ k, xNormalized n d x i k * xNormalized n d x i k ≤ 1 := by
  have hterm : ∀ k : Fin d, xNormalized n d x i k * xNormalized n d x i k
      = (x i k) ^ 2 / (max (rowNorm d (x i)) 1e-12) ^ 2 := by
    intro k
    simp only [xNormalized, normalizeRow]
    rw [div_mul_div_comm, ← pow_two, ← pow_two]
  have hsum : (∑ k, xNormalized n d x i k * xNormalized n d x i k)
      = (∑ k, (x i k) ^ 2) / (max (rowNorm d (x i)) 1e-12) ^ 2 := by
    simp_rw [hterm]
    rw [← Finset.sum_div]
  have hS_nonneg : (0 : ℝ) ≤ ∑ k, (x i k) ^ 2 :=
    Finset.sum_nonneg fun k _ => sq_nonneg _
  have hm_pos : (0 : ℝ) < max (rowNorm d (x i)) 1e-12 :=
    lt_of_lt_of_le (by norm_num) (le_max_right _ _)
  have hS_le : (∑ k, (x i k) ^ 2) ≤ (max (rowNorm d (x i)) 1e-12) ^ 2 := by
    have h2 : (rowNorm d (x i)) ^ 2 ≤ (max (rowNorm d (x i)) 1e-12) ^ 2 :=
      pow_le_pow_left₀ (Real.sqrt_nonneg _) (le_max_left _ _) 2
    simp only [rowNorm] at h2
    rwa [Real.sq_sqrt hS_nonneg] at h2
  rw [hsum]
  exact (div_le_one (by positivity)).mpr hS_le

/-- Diagonal entries of the clamped similarity matrix are at most `1`. -/
theorem x_scores_diag_le_one (n d : ℕ) (x : Fin n → Fin d → ℝ) (i : Fin n) :
    x_scores n d x i i ≤ 1 :=
  max_le (normalized_self_sim_le_one n d x i) (by norm_num)

/-- C4: after scaling by the temperature, `1e5` is subtracted from every
diagonal entry and only the diagonal entries of the score matrix; as a
consequence the softmax probability of the self-entry of any row is at
most `exp(1/t - 1e5)`, which for any temperature `t` with `1/t ≤ 100` is
at most `10⁻³⁰⁰` — approximately zero, so a row never treats itself as a
candidate match. -/
theorem nt_xent_diag_suppression (n d : ℕ) (x : Fin n → Fin d → ℝ) (t : ℝ)
    (i j : Fin n) (hij : i ≠ j) (ht : 0 < t) (ht2 : 1 / t ≤ 100) :
    x_scale_diag n d x t i i = x_scale n d x t i i - 1e5
    ∧ x_scale_diag n d x t i j = x_scale n d x t i j
    ∧ softmaxProb n (x_scale_diag n d x t i) i ≤ Real.exp (1 / t - 1e5)
    ∧ softmaxProb n (x_scale_diag n d x t i) i ≤ 1 / 10 ^ 300 := by
  have hrow_i : x_scale_diag n d x t i i = x_scores n d x i i / t - 1e5 := by
    simp [x_scale_diag, x_scale]
  have hrow_j : x_scale_diag n d x t i j = x_scores n d x i j / t := by
    simp [x_scale_diag, x_scale, hij]
  have hdenom_ge : Real.exp (x_scale_diag n d x t i j)
      ≤ ∑ k, Real.exp (x_scale_diag n d x t i k) :=
    Finset.single_le_sum (fun k _ => (Real.exp_pos _).le) (Finset.mem_univ j)
  have h1 : softmaxProb n (x_scale_diag n d x t i) i
      ≤ Real.exp (x_scale_diag n d x t i i)
        / Real.exp (x_scale_diag n d x t i j) :=
    div_le_div_of_nonneg_left (Real.exp_pos _).le (Real.exp_pos _) hdenom_ge
  rw [← Real.exp_sub] at h1
  have hdiag_le : x_scale_diag n d x t i i ≤ 1 / t - 1e5 := by
    rw [hrow_i]
    have h2 : x_scores n d x i i / t ≤ 1 / t :=
      (div_le_div_iff_of_pos_right ht).mpr (x_scores_diag_le_one n d x i)
    linarith
  have hoff_nonneg : (0 : ℝ) ≤ x_scale_diag n d x t i j := by
    rw [hrow_j]
    refine div_nonneg ?_ ht.le
    simp only [x_scores]
    exact le_trans (by norm_num) (le_max_right _ _)
  have h3 : softmaxProb n (x_scale_diag n d x t i) i
      ≤ Real.exp (1 / t - 1e5) :=
    le_trans h1 (Real.exp_le_exp.mpr (by linarith))
  have he5 : (1e5 : ℝ) = 100000 := by norm_num
  have hpow : (10 : ℝ) ^ 300 ≤ Real.exp 99900 := by
    have hmul : Real.exp (99900 : ℝ) = Real.exp 999 ^ (100 : ℕ) := by
      rw [← Real.exp_nat_mul]
      norm_num
    have h999 : (1000 : ℝ) ≤ Real.exp 999 := by
      have := Real.add_one_le_exp (999 : ℝ)
      linarith
    rw [hmul]
    calc (10 : ℝ) ^ 300 = ((10 : ℝ) ^ 3) ^ 100 := by rw [← pow_mul]
      _ = (1000 : ℝ) ^ 100 := by norm_num
      _ ≤ Real.exp 999 ^ 100 := pow_le_pow_left₀ (by norm_num) h999 100
  have h4 : softmaxProb n (x_scale_diag n d x t i) i ≤ 1 / 10 ^ 300 := by
    have hstep : Real.exp (1 / t - 1e5) ≤ Real.exp (-99900 : ℝ) :=
      Real.exp_le_exp.mpr (by rw [he5] at *; linarith)
    have hneg : Real.exp (-99900 : ℝ) ≤ 1 / 10 ^ 300 := by
      rw [Real.exp_neg, inv_eq_one_div]
      exact one_div_le_one_div_of_le (by positivity) hpow
    exact le_trans h3 (le_trans hstep hneg)
  exact ⟨by simp [x_scale_diag], by simp [x_scale_diag, hij], h3, h4⟩

theorem nt_xent_diag_suppression_witness :
    (x_scale_diag 2 1 ![![1], ![1]] (1/2) 0 0
        = x_scale 2 1 ![![1], ![1]] (1/2) 0 0 - 1e5
    ∧ x_scale_diag 2 1 ![![1], ![1]] (1/2) 0 1
        = x_scale 2 1 ![![1], ![1]] (1/2) 0 1
    ∧ softmaxProb 2 (x_scale_diag 2 1 ![![1], ![1]] (1/2) 0) 0
        ≤ Real.exp (1 / (1/2) - 1e5)
    ∧ softmaxProb 2 (x_scale_diag 2 1 ![![1], ![1]] (1/2) 0) 0
        ≤ 1 / 10 ^ 300) :=
  nt_xent_diag_suppression 2 1 ![![1], ![1]] (1/2) 0 1
    (by decide) (by norm_num) (by norm_num)

/-- C9: `nt_xent` is a pure function of its two arguments: evaluating it
twice on identical inputs yields identical loss values. -/
theorem nt_xent_deterministic (N d : ℕ) (x y : Fin (2 * N) → Fin d → ℝ)
    (t s : ℝ) (hx : x = y) (ht : t = s) :
    nt_xent N d x t = nt_xent N d y s := by
  rw [hx, ht]

theorem nt_xent_deterministic_witness :
    nt_xent 1 1 ![![1], ![1]] (1/2) = nt_xent 1 1 ![![1], ![1]] (1/2) :=
  nt_xent_deterministic 1 1 ![![1], ![1]] ![![1], ![1]] (1/2) (1/2) rfl rfl

end SimCLR
